import Mathlib

/-!
Verification of the `url_query_string` crate: a derive macro that attaches two
methods to a struct,

  to_query_string     = serde_qs::to_string(self).unwrap_or_default()
  try_to_query_string = serde_qs::to_string(self)

(src/src/lib.rs, lines 173-186).  The underlying encoder `serde_qs::to_string`
is an external dependency whose code is not part of this repository; it is
modelled here from the specification (spec.md sections 3, 4 and 6): records are
ordered lists of optionally-absent fields, fields are emitted in declaration
order, absent fields are skipped, keys come from a naming convention with a
per-field rename override, sequences expand to `key[i]=v` pairs, nested records
expand with `parent[child]` keys, keys and values are percent-encoded, and the
pairs are joined with `&`.
-/

namespace UrlQueryString

/-- Modelled from the spec: the single error kind of the encoder
(`EncodeError::UnsupportedType`), raised when a field value cannot be
represented in the flat query-string grammar. -/
inductive EncodeError where
  | UnsupportedType
deriving DecidableEq, Repr

/-- Modelled from the spec: the naming-convention policies of section 6,
`{ identity, camelCase, snake_case, kebab-case, PascalCase }`. -/
inductive NamingConvention where
  | identity
  | camelCase
  | snakeCase
  | kebabCase
  | pascalCase
deriving DecidableEq, Repr

/-- Upper-case the first character of a word (ASCII). -/
def capitalizeWord (w : String) : String :=
  match w.data with
  | [] => w
  | c :: cs => String.mk (c.toUpper :: cs)

/-- Lower-case every character of a word (ASCII). -/
def lowerWord (w : String) : String :=
  String.mk (w.data.map Char.toLower)

/-- Split a character list at underscores (word boundaries of a `snake_case`
declared name). -/
def splitUnderscore : List Char → List (List Char)
  | [] => [[]]
  | c :: cs =>
    let rest := splitUnderscore cs
    if c = '_' then [] :: rest
    else
      match rest with
      | [] => [[c]]
      | w :: ws => (c :: w) :: ws

/-- The words of a declared field name. -/
def splitWords (s : String) : List String :=
  (splitUnderscore s.data).map String.mk

/-- Modelled from the spec: apply a naming convention to a declared field
name.  Declared names are in `snake_case` (the source language's field-name
style), so word boundaries are underscores. -/
def applyConvention (conv : NamingConvention) (name : String) : String :=
  match conv with
  | .identity => name
  | .camelCase =>
    match splitWords name with
    | [] => name
    | w :: ws => w ++ String.join (ws.map capitalizeWord)
  | .snakeCase => String.intercalate "_" ((splitWords name).map lowerWord)
  | .kebabCase => String.intercalate "-" ((splitWords name).map lowerWord)
  | .pascalCase => String.join ((splitWords name).map capitalizeWord)

mutual
/-- Modelled from the spec: a field value.  Scalars are strings, unsigned
integers and booleans; a sequence of values and a nested record are the
composite forms; `bytes` stands for unencodable binary data, the spec's
example of a value the codec cannot represent. -/
inductive Value where
  | str (s : String)
  | natv (n : Nat)
  | boolv (b : Bool)
  | bytes (bs : List Nat)
  | seq (vs : List Value)
  | record (fs : List Field)

/-- Modelled from the spec: a field is
`{ declared_name, rename : optional, value : optional }`. -/
inductive Field where
  | mk (declared_name : String) (rename : Option String) (value : Option Value)
end

/-- The declared name of a field. -/
def Field.declared_name : Field → String
  | .mk n _ _ => n

/-- The optional rename override of a field. -/
def Field.rename : Field → Option String
  | .mk _ r _ => r

/-- The optional value of a field. -/
def Field.value : Field → Option Value
  | .mk _ _ v => v

@[simp] lemma Field.declared_name_mk (n : String) (r : Option String)
    (v : Option Value) : (Field.mk n r v).declared_name = n := rfl

@[simp] lemma Field.rename_mk (n : String) (r : Option String)
    (v : Option Value) : (Field.mk n r v).rename = r := rfl

@[simp] lemma Field.value_mk (n : String) (r : Option String)
    (v : Option Value) : (Field.mk n r v).value = v := rfl

/-- A record is an ordered list of fields (declaration order). -/
abbrev Record := List Field

/-- Modelled from the spec: the output key of a field: the convention applied
to the declared name, overridden by the explicit rename when present, and
wrapped as `parent[key]` under a nesting prefix. -/
def mkKey (conv : NamingConvention) (pref : Option String)
    (dn : String) (rn : Option String) : String :=
  let k := rn.getD (applyConvention conv dn)
  match pref with
  | none => k
  | some p => p ++ "[" ++ k ++ "]"

/-- Hexadecimal digit for a number below 16 (upper case). -/
def hexDigit (n : Nat) : Char :=
  if n < 10 then Char.ofNat (48 + n) else Char.ofNat (55 + (n % 16))

/-- `%XX` escape of one byte. -/
def pctByte (b : Nat) : String :=
  String.mk ['%', hexDigit (b / 16 % 16), hexDigit (b % 16)]

/-- UTF-8 bytes of a character, as plain naturals. -/
def utf8Bytes (c : Char) : List Nat :=
  let n := c.toNat
  if n < 0x80 then [n]
  else if n < 0x800 then [0xC0 + n / 64, 0x80 + n % 64]
  else if n < 0x10000 then
    [0xE0 + n / 4096, 0x80 + n / 64 % 64, 0x80 + n % 64]
  else
    [0xF0 + n / 262144, 0x80 + n / 4096 % 64, 0x80 + n / 64 % 64, 0x80 + n % 64]

/-- RFC 3986 unreserved characters, which are never escaped. -/
def isUnreserved (c : Char) : Bool :=
  c.isAlphanum || c = '-' || c = '_' || c = '.' || c = '~'

/-- Modelled from the spec: percent-encode a string per RFC 3986
query-component rules (space becomes `%20`). -/
def pctEncode (s : String) : String :=
  String.join (s.data.map fun c =>
    if isUnreserved c then String.mk [c]
    else String.join ((utf8Bytes c).map pctByte))

/-- Modelled from the spec: percent-encode an output key.  The bracket
characters of the nesting and indexing syntax (`parent[child]`, `list[0]`)
stay literal, as in the spec's own examples. -/
def pctEncodeKey (s : String) : String :=
  String.join (s.data.map fun c =>
    if isUnreserved c || c = '[' || c = ']' then String.mk [c]
    else String.join ((utf8Bytes c).map pctByte))

mutual
/-- Modelled from the spec: serialize one present value under its output key
into a list of raw `(key, value)` pairs (section 4.1, step 3): scalars give
one pair, sequences one pair per element with zero-based index keys, nested
records recurse with a `parent[child]` key prefix; unencodable binary data
fails with `UnsupportedType`. -/
def encodeValue (conv : NamingConvention) (key : String) :
    Value → Except EncodeError (List (String × String))
  | .str s => .ok [(key, s)]
  | .natv n => .ok [(key, Nat.repr n)]
  | .boolv b => .ok [(key, if b then "true" else "false")]
  | .bytes _ => .error .UnsupportedType
  | .seq vs => encodeSeq conv key 0 vs
  | .record fs => encodeFields conv (some key) fs

/-- Modelled from the spec: the elements of a sequence, in order, each under
the key `key[i]` with `i` its zero-based position. -/
def encodeSeq (conv : NamingConvention) (key : String) (i : Nat) :
    List Value → Except EncodeError (List (String × String))
  | [] => .ok []
  | v :: vs => do
    let ps ← encodeValue conv (key ++ "[" ++ Nat.repr i ++ "]") v
    let qs ← encodeSeq conv key (i + 1) vs
    .ok (ps ++ qs)

/-- Modelled from the spec: the fields of a record, in declaration order;
a field with absent value is skipped entirely, a present field is serialized
under its computed key (section 4.1, steps 1 and 2). -/
def encodeFields (conv : NamingConvention) (pref : Option String) :
    List Field → Except EncodeError (List (String × String))
  | [] => .ok []
  | .mk _ _ none :: fs => encodeFields conv pref fs
  | .mk dn rn (some v) :: fs => do
    let ps ← encodeValue conv (mkKey conv pref dn rn) v
    let qs ← encodeFields conv pref fs
    .ok (ps ++ qs)
end

/-- Render one raw pair as `key=value`, percent-encoding both sides. -/
def pairString (p : String × String) : String :=
  pctEncodeKey p.1 ++ "=" ++ pctEncode p.2

/-- Join the rendered pairs with `&`, preserving their order. -/
def renderPairs (ps : List (String × String)) : String :=
  String.intercalate "&" (ps.map pairString)

/-- Modelled from the spec: the encoder
`encode(record, convention) -> Result<string, EncodeError>` of section 4.1,
standing for `serde_qs::to_string`, whose source is not in this repository. -/
def encode (conv : NamingConvention) (r : Record) : Except EncodeError String :=
  (encodeFields conv none r).map renderPairs

/-- `to_query_string` from src/src/lib.rs lines 173-175:
`serde_qs::to_string(self).unwrap_or_default()` — the encoder's output on
success, and the default empty string on any error. -/
def to_query_string (conv : NamingConvention) (r : Record) : String :=
  match encode conv r with
  | .ok s => s
  | .error _ => ""

/-- `try_to_query_string` from src/src/lib.rs lines 184-186:
`serde_qs::to_string(self)`, the encoder's result returned unchanged. -/
def try_to_query_string (conv : NamingConvention) (r : Record) :
    Except EncodeError String :=
  encode conv r

/-- The test record of src/tests/to_query_string.rs lines 15-20: all four
fields present, no rename overrides, under `rename_all = "camelCase"`. -/
def testStructInstance : Record :=
  [ .mk "page" none (some (.natv 1))
  , .mk "page_size" none (some (.natv 20))
  , .mk "id" none (some (.str "test_id"))
  , .mk "user_id" none (some (.str "user_123")) ]

/-- Whether a value is a scalar (string, integer or boolean). -/
def Value.isScalar : Value → Bool
  | .str _ => true
  | .natv _ => true
  | .boolv _ => true
  | _ => false

/-- Whether a field is present with a scalar value. -/
def Field.presentScalar (f : Field) : Bool :=
  match f.value with
  | some v => v.isScalar
  | none => false

/-- A record holding unencodable binary data, the spec's example of a value
the codec cannot represent: encoding it fails with `UnsupportedType`. -/
def unsupportedRecord : Record :=
  [.mk "data" none (some (.bytes [0]))]

lemma encodeFields_append (conv : NamingConvention) (pref : Option String)
    (fs gs : List Field) :
    encodeFields conv pref (fs ++ gs) =
      (encodeFields conv pref fs).bind fun ps =>
        (encodeFields conv pref gs).map fun qs => ps ++ qs := by
  induction fs with
  | nil =>
    simp only [List.nil_append, encodeFields]
    cases encodeFields conv pref gs <;>
      simp [Except.bind, Except.map]
  | cons f fs ih =>
    cases f with
    | mk dn rn v =>
      cases v with
      | none =>
        simpa only [List.cons_append, encodeFields] using ih
      | some v =>
        simp only [List.cons_append, encodeFields, List.append_eq]
        rw [ih]
        rcases hv : encodeValue conv (mkKey conv pref dn rn) v with e | ps <;>
          rcases hf : encodeFields conv pref fs with e2 | ps2 <;>
          rcases hg : encodeFields conv pref gs with e3 | ps3 <;>
          simp [hv, hf, hg, Except.bind, Except.map, bind, List.append_assoc]

lemma encodeFields_filter_isSome (conv : NamingConvention) (pref : Option String)
    (fs : List Field) :
    encodeFields conv pref (fs.filter fun f => f.value.isSome) =
      encodeFields conv pref fs := by
  induction fs with
  | nil => rfl
  | cons f fs ih =>
    cases f with
    | mk dn rn v =>
      cases v with
      | none =>
        simp only [List.filter_cons, Field.value_mk, Option.isSome_none,
          Bool.false_eq_true, if_false, encodeFields]
        exact ih
      | some v =>
        simp only [List.filter_cons, Field.value_mk, Option.isSome_some,
          if_true, encodeFields, ih]

lemma encodeFields_all_none (conv : NamingConvention) (pref : Option String)
    (fs : List Field) (h : ∀ f ∈ fs, f.value.isNone) :
    encodeFields conv pref fs = .ok [] := by
  induction fs with
  | nil => rfl
  | cons f fs ih =>
    cases f with
    | mk dn rn v =>
      cases v with
      | none =>
        exact (encodeFields.eq_2 conv pref dn rn fs).trans
          (ih fun g hg => h g (List.mem_cons_of_mem _ hg))
      | some v =>
        have := h _ (List.mem_cons_self _ _)
        simp [Field.value] at this

lemma encodeFields_scalar_keys (conv : NamingConvention) (fs : List Field)
    (h : ∀ f ∈ fs, f.presentScalar = true) :
    ∃ ps, encodeFields conv none fs = .ok ps ∧
      ps.map Prod.fst =
        fs.map fun f => mkKey conv none f.declared_name f.rename := by
  induction fs with
  | nil => exact ⟨[], rfl, rfl⟩
  | cons f fs ih =>
    obtain ⟨ps, hps, hkeys⟩ := ih fun g hg => h g (List.mem_cons_of_mem _ hg)
    have hf := h f (List.mem_cons_self _ _)
    cases f with
    | mk dn rn v =>
      cases v with
      | none => simp [Field.presentScalar, Field.value] at hf
      | some v =>
        cases v with
        | str s =>
          exact ⟨(mkKey conv none dn rn, s) :: ps, by
            simp [encodeFields, encodeValue, hps, Except.bind, bind], by
            simp [hkeys, Field.declared_name, Field.rename]⟩
        | natv n =>
          exact ⟨(mkKey conv none dn rn, Nat.repr n) :: ps, by
            simp [encodeFields, encodeValue, hps, Except.bind, bind], by
            simp [hkeys, Field.declared_name, Field.rename]⟩
        | boolv b =>
          exact ⟨(mkKey conv none dn rn, if b then "true" else "false") :: ps, by
            simp [encodeFields, encodeValue, hps, Except.bind, bind], by
            simp [hkeys, Field.declared_name, Field.rename]⟩
        | bytes bs => simp [Field.presentScalar, Field.value, Value.isScalar] at hf
        | seq vs => simp [Field.presentScalar, Field.value, Value.isScalar] at hf
        | record gs => simp [Field.presentScalar, Field.value, Value.isScalar] at hf

lemma encodeSeq_append (conv : NamingConvention) (key : String)
    (vs ws : List Value) : ∀ i,
    encodeSeq conv key i (vs ++ ws) =
      (encodeSeq conv key i vs).bind fun ps =>
        (encodeSeq conv key (i + vs.length) ws).map fun qs => ps ++ qs := by
  induction vs with
  | nil =>
    intro i
    simp only [List.nil_append, encodeSeq, List.length_nil, Nat.add_zero]
    cases encodeSeq conv key i ws <;> simp [Except.bind, Except.map]
  | cons v vs ih =>
    intro i
    simp only [List.cons_append, encodeSeq, List.append_eq, List.length_cons]
    rw [ih (i + 1)]
    have hidx : i + 1 + vs.length = i + (vs.length + 1) := by omega
    rw [hidx]
    rcases hv : encodeValue conv (key ++ "[" ++ Nat.repr i ++ "]") v with e | ps <;>
      rcases hs : encodeSeq conv key (i + 1) vs with e2 | ps2 <;>
      rcases hw : encodeSeq conv key (i + (vs.length + 1)) ws with e3 | ps3 <;>
      simp [hv, hs, hw, Except.bind, Except.map, bind, List.append_assoc]

lemma encodeSeq_scalar_keys (conv : NamingConvention) (key : String) :
    ∀ vs : List Value, (∀ v ∈ vs, v.isScalar = true) → ∀ i,
    ∃ ps, encodeSeq conv key i vs = .ok ps ∧
      ps.map Prod.fst =
        (List.range vs.length).map fun j =>
          key ++ "[" ++ Nat.repr (i + j) ++ "]" := by
  intro vs
  induction vs with
  | nil => exact fun _ i => ⟨[], rfl, rfl⟩
  | cons v vs ih =>
    intro h i
    obtain ⟨ps, hps, hkeys⟩ :=
      ih (fun w hw => h w (List.mem_cons_of_mem _ hw)) (i + 1)
    have hv := h v (List.mem_cons_self _ _)
    have hfun : (fun j => key ++ "[" ++ Nat.repr (i + 1 + j) ++ "]") =
        fun j => key ++ "[" ++ Nat.repr (i + (j + 1)) ++ "]" := by
      funext j
      rw [Nat.add_assoc, Nat.add_comm 1 j]
    have htail : ps.map Prod.fst =
        (List.range vs.length).map fun j =>
          key ++ "[" ++ Nat.repr (i + (j + 1)) ++ "]" := by
      rw [hkeys, hfun]
    cases v with
    | str s =>
      refine ⟨(key ++ "[" ++ Nat.repr i ++ "]", s) :: ps, ?_, ?_⟩
      · simp [encodeSeq, encodeValue, hps, Except.bind, bind]
      · simp [List.length_cons, List.range_succ_eq_map, List.map_map,
          Function.comp, Nat.succ_eq_add_one, Nat.add_zero, htail]
    | natv n =>
      refine ⟨(key ++ "[" ++ Nat.repr i ++ "]", Nat.repr n) :: ps, ?_, ?_⟩
      · simp [encodeSeq, encodeValue, hps, Except.bind, bind]
      · simp [List.length_cons, List.range_succ_eq_map, List.map_map,
          Function.comp, Nat.succ_eq_add_one, Nat.add_zero, htail]
    | boolv b =>
      refine ⟨(key ++ "[" ++ Nat.repr i ++ "]",
          if b then "true" else "false") :: ps, ?_, ?_⟩
      · simp [encodeSeq, encodeValue, hps, Except.bind, bind]
      · simp [List.length_cons, List.range_succ_eq_map, List.map_map,
          Function.comp, Nat.succ_eq_add_one, Nat.add_zero, htail]
    | bytes bs => simp [Value.isScalar] at hv
    | seq ws => simp [Value.isScalar] at hv
    | record gs => simp [Value.isScalar] at hv

/-- C1: the record with page=1, page_size=20, id="test_id", user_id="user_123"
(all present, no overrides) under the camelCase convention encodes, through
both the lossy and the strict entry point, to exactly
`page=1&pageSize=20&id=test_id&userId=user_123`. -/
theorem camelCase_example_encodes_exactly :
    to_query_string .camelCase testStructInstance =
        "page=1&pageSize=20&id=test_id&userId=user_123" ∧
      try_to_query_string .camelCase testStructInstance =
        .ok "page=1&pageSize=20&id=test_id&userId=user_123" := by
  constructor <;>
    (simp only [to_query_string, try_to_query_string, encode, testStructInstance,
      encodeFields, encodeValue, mkKey, applyConvention, splitWords,
      splitUnderscore, renderPairs, pairString, pctEncode, pctEncodeKey,
      isUnreserved, capitalizeWord, Except.map, Except.bind, bind, pure,
      Except.pure]
     rfl)

/-- C2: the lossy entry point `to_query_string` returns the empty string
whenever the underlying encoder fails, and the encoder's output string when
it succeeds; the error is never propagated. -/
theorem to_query_string_swallows_errors (conv : NamingConvention) (r : Record) :
    (∀ e, encode conv r = .error e → to_query_string conv r = "") ∧
      ∀ s, encode conv r = .ok s → to_query_string conv r = s := by
  constructor
  · intro e he
    simp [to_query_string, he]
  · intro s hs
    simp [to_query_string, hs]

theorem to_query_string_swallows_errors_witness :
    (encode .identity unsupportedRecord = .error .UnsupportedType ∧
        to_query_string .identity unsupportedRecord = "") ∧
      encode .camelCase testStructInstance =
          .ok "page=1&pageSize=20&id=test_id&userId=user_123" ∧
        to_query_string .camelCase testStructInstance =
          "page=1&pageSize=20&id=test_id&userId=user_123" := by
  have herr : encode .identity unsupportedRecord = .error .UnsupportedType := by
    simp only [encode, unsupportedRecord, encodeFields, encodeValue,
      Except.map, Except.bind, bind]
  have hok : encode .camelCase testStructInstance =
      .ok "page=1&pageSize=20&id=test_id&userId=user_123" := by
    simp only [encode, testStructInstance, encodeFields, encodeValue, mkKey,
      applyConvention, splitWords, splitUnderscore, renderPairs, pairString,
      pctEncode, pctEncodeKey, isUnreserved, capitalizeWord, Except.map,
      Except.bind, bind, pure, Except.pure]
    rfl
  exact ⟨⟨herr, (to_query_string_swallows_errors _ _).1 _ herr⟩,
    hok, (to_query_string_swallows_errors _ _).2 _ hok⟩

/-- C3: the strict entry point `try_to_query_string` returns exactly the
underlying encoder's result, unchanged: `Ok` on success, the same `Err` on
failure, with no substitution or recovery. -/
theorem try_to_query_string_is_encoder (conv : NamingConvention) (r : Record) :
    try_to_query_string conv r = encode conv r ∧
      (∀ s, encode conv r = .ok s → try_to_query_string conv r = .ok s) ∧
      ∀ e, encode conv r = .error e → try_to_query_string conv r = .error e := by
  refine ⟨rfl, fun s hs => hs, fun e he => he⟩

theorem try_to_query_string_is_encoder_witness :
    (encode .camelCase testStructInstance =
          .ok "page=1&pageSize=20&id=test_id&userId=user_123" ∧
        try_to_query_string .camelCase testStructInstance =
          .ok "page=1&pageSize=20&id=test_id&userId=user_123") ∧
      encode .identity unsupportedRecord = .error .UnsupportedType ∧
        try_to_query_string .identity unsupportedRecord =
          .error .UnsupportedType := by
  have hok : encode .camelCase testStructInstance =
      .ok "page=1&pageSize=20&id=test_id&userId=user_123" := by
    simp only [encode, testStructInstance, encodeFields, encodeValue, mkKey,
      applyConvention, splitWords, splitUnderscore, renderPairs, pairString,
      pctEncode, pctEncodeKey, isUnreserved, capitalizeWord, Except.map,
      Except.bind, bind, pure, Except.pure]
    rfl
  have herr : encode .identity unsupportedRecord = .error .UnsupportedType := by
    simp only [encode, unsupportedRecord, encodeFields, encodeValue,
      Except.map, Except.bind, bind]
  exact ⟨⟨hok, (try_to_query_string_is_encoder _ _).2.1 _ hok⟩,
    herr, (try_to_query_string_is_encoder _ _).2.2 _ herr⟩

/-- C4: an absent field contributes nothing to the output: encoding a record
equals encoding the record with all absent-valued fields removed, under both
entry points, and the field serializer skips an absent-valued field
entirely. -/
theorem absent_fields_are_omitted (conv : NamingConvention) (r : Record) :
    (to_query_string conv r =
        to_query_string conv (r.filter fun f => f.value.isSome) ∧
      try_to_query_string conv r =
        try_to_query_string conv (r.filter fun f => f.value.isSome)) ∧
      ∀ pref dn rn fs,
        encodeFields conv pref (Field.mk dn rn none :: fs) =
          encodeFields conv pref fs := by
  refine ⟨⟨?_, ?_⟩, fun pref dn rn fs => by simp [encodeFields]⟩
  · simp [to_query_string, encode, encodeFields_filter_isSome]
  · simp [try_to_query_string, encode, encodeFields_filter_isSome]

/-- C5: output order follows declaration order: field serialization is a
homomorphism for record concatenation (each field's pairs form a contiguous
block, in field order), sequence serialization is a homomorphism for element
concatenation with the index advancing by position (elements keep internal
index order), a sequence field expands in place starting at index zero and a
nested-record field expands in place under its parent key in the nested
declaration order, a sequence of scalars produces exactly the keys
`key[i]`, `key[i+1]`, ... in element order, and a record of present scalar
fields produces exactly the fields' computed keys in declaration order. -/
theorem output_order_follows_declaration_order :
    (∀ (conv : NamingConvention) (pref : Option String) (fs gs : List Field),
        encodeFields conv pref (fs ++ gs) =
          (encodeFields conv pref fs).bind fun ps =>
            (encodeFields conv pref gs).map fun qs => ps ++ qs) ∧
      (∀ (conv : NamingConvention) (key : String) (vs ws : List Value)
          (i : Nat),
        encodeSeq conv key i (vs ++ ws) =
          (encodeSeq conv key i vs).bind fun ps =>
            (encodeSeq conv key (i + vs.length) ws).map fun qs => ps ++ qs) ∧
      (∀ (conv : NamingConvention) (key : String) (vs : List Value),
        encodeValue conv key (.seq vs) = encodeSeq conv key 0 vs) ∧
      (∀ (conv : NamingConvention) (key : String) (fs : List Field),
        encodeValue conv key (.record fs) = encodeFields conv (some key) fs) ∧
      (∀ (conv : NamingConvention) (key : String) (vs : List Value),
        (∀ v ∈ vs, v.isScalar = true) → ∀ i,
        ∃ ps, encodeSeq conv key i vs = .ok ps ∧
          ps.map Prod.fst =
            (List.range vs.length).map fun j =>
              key ++ "[" ++ Nat.repr (i + j) ++ "]") ∧
      ∀ (conv : NamingConvention) (fs : List Field),
        (∀ f ∈ fs, f.presentScalar = true) →
        ∃ ps, encodeFields conv none fs = .ok ps ∧
          ps.map Prod.fst =
            fs.map fun f => mkKey conv none f.declared_name f.rename :=
  ⟨encodeFields_append,
    fun conv key vs ws => encodeSeq_append conv key vs ws,
    fun conv key vs => by simp [encodeValue],
    fun conv key fs => by simp [encodeValue],
    encodeSeq_scalar_keys,
    encodeFields_scalar_keys⟩

theorem output_order_follows_declaration_order_witness :
    ((∀ v ∈ [Value.str "a", Value.str "b", Value.str "c"],
          v.isScalar = true) ∧
        ∃ ps, encodeSeq .identity "list" 0
            [Value.str "a", Value.str "b", Value.str "c"] = .ok ps ∧
          ps.map Prod.fst =
            (List.range
                (List.length [Value.str "a", Value.str "b", Value.str "c"])).map
              fun j => "list" ++ "[" ++ Nat.repr (0 + j) ++ "]") ∧
      (∀ f ∈ testStructInstance, f.presentScalar = true) ∧
        ∃ ps, encodeFields .camelCase none testStructInstance = .ok ps ∧
          ps.map Prod.fst = testStructInstance.map fun f =>
            mkKey .camelCase none f.declared_name f.rename := by
  have hseq : ∀ v ∈ [Value.str "a", Value.str "b", Value.str "c"],
      v.isScalar = true := by decide
  have hrec : ∀ f ∈ testStructInstance, f.presentScalar = true := by decide
  exact ⟨⟨hseq, output_order_follows_declaration_order.2.2.2.2.1 .identity
      "list" _ hseq 0⟩,
    hrec, output_order_follows_declaration_order.2.2.2.2.2 .camelCase
      testStructInstance hrec⟩

/-- C6: encoding is deterministic: any two results of either entry point on
the same record and convention are equal. -/
theorem encoding_is_deterministic (conv : NamingConvention) (r : Record) :
    (∀ s₁ s₂, to_query_string conv r = s₁ → to_query_string conv r = s₂ →
        s₁ = s₂) ∧
      ∀ x₁ x₂, try_to_query_string conv r = x₁ →
        try_to_query_string conv r = x₂ → x₁ = x₂ :=
  ⟨fun _ _ h1 h2 => h1.symm.trans h2, fun _ _ h1 h2 => h1.symm.trans h2⟩

theorem encoding_is_deterministic_witness :
    to_query_string .camelCase testStructInstance =
        "page=1&pageSize=20&id=test_id&userId=user_123" ∧
      ("page=1&pageSize=20&id=test_id&userId=user_123" : String) =
        "page=1&pageSize=20&id=test_id&userId=user_123" := by
  have h : to_query_string .camelCase testStructInstance =
      "page=1&pageSize=20&id=test_id&userId=user_123" := by
    simp only [to_query_string, encode, testStructInstance, encodeFields,
      encodeValue, mkKey, applyConvention, splitWords, splitUnderscore,
      renderPairs, pairString, pctEncode, pctEncodeKey, isUnreserved,
      capitalizeWord, Except.map, Except.bind, bind, pure, Except.pure]
    rfl
  exact ⟨h, (encoding_is_deterministic _ _).1 _ _ h h⟩

/-- C7: a record all of whose fields are absent encodes to the empty string
under the lossy entry point and to `Ok ""` under the strict one. -/
theorem all_absent_record_encodes_empty (conv : NamingConvention) (r : Record)
    (h : ∀ f ∈ r, f.value.isNone) :
    to_query_string conv r = "" ∧ try_to_query_string conv r = .ok "" := by
  have henc : encode conv r = .ok "" := by
    simp only [encode, encodeFields_all_none conv none r h, Except.map]
    rfl
  exact ⟨by simp [to_query_string, henc], henc⟩

theorem all_absent_record_encodes_empty_witness :
    (∀ f ∈ [Field.mk "page" none none, Field.mk "user_id" none none],
        f.value.isNone) ∧
      to_query_string .camelCase
          [Field.mk "page" none none, Field.mk "user_id" none none] = "" ∧
        try_to_query_string .camelCase
          [Field.mk "page" none none, Field.mk "user_id" none none] =
            .ok "" := by
  have h : ∀ f ∈ [Field.mk "page" none none, Field.mk "user_id" none none],
      f.value.isNone := by decide
  obtain ⟨h1, h2⟩ := all_absent_record_encodes_empty .camelCase _ h
  exact ⟨h, h1, h2⟩

/-- C8: the strict entry point's error domain is the single kind
`UnsupportedType`: any error it returns is that value. -/
theorem encode_error_is_unsupported_type (conv : NamingConvention) (r : Record)
    (e : EncodeError) (h : try_to_query_string conv r = .error e) :
    e = .UnsupportedType := by
  cases e
  rfl

theorem encode_error_is_unsupported_type_witness :
    try_to_query_string .identity unsupportedRecord =
        .error .UnsupportedType ∧
      EncodeError.UnsupportedType = EncodeError.UnsupportedType := by
  have h : try_to_query_string .identity unsupportedRecord =
      .error .UnsupportedType := by
    simp only [try_to_query_string, encode, unsupportedRecord, encodeFields,
      encodeValue, Except.map, Except.bind, bind]
  exact ⟨h, encode_error_is_unsupported_type .identity unsupportedRecord _ h⟩

/-- C9: both entry points are total: for every record and convention the
lossy entry point returns a string and the strict one returns either an `Ok`
string or an `error` value (never a process-level fault, which the embedding
has no constructor for). -/
theorem entry_points_are_total (conv : NamingConvention) (r : Record) :
    ((∃ s, try_to_query_string conv r = .ok s) ∨
        ∃ e, try_to_query_string conv r = .error e) ∧
      ∃ s, to_query_string conv r = s := by
  refine ⟨?_, ⟨_, rfl⟩⟩
  rcases h : try_to_query_string conv r with e | s
  · exact .inr ⟨e, rfl⟩
  · exact .inl ⟨s, rfl⟩

/-- C10: the lossy entry point is the strict one followed by
`unwrap_or_default`: it returns the strict result's string on `Ok` and the
empty string (the `String` default) on error. -/
theorem lossy_refines_strict (conv : NamingConvention) (r : Record) :
    to_query_string conv r =
        (match try_to_query_string conv r with
          | .ok s => s
          | .error _ => "") ∧
      (∀ s, try_to_query_string conv r = .ok s → to_query_string conv r = s) ∧
      ∀ e, try_to_query_string conv r = .error e →
        to_query_string conv r = "" := by
  refine ⟨rfl, fun s hs => ?_, fun e he => ?_⟩
  · simp only [try_to_query_string] at hs
    simp [to_query_string, hs]
  · simp only [try_to_query_string] at he
    simp [to_query_string, he]

theorem lossy_refines_strict_witness :
    (try_to_query_string .camelCase testStructInstance =
          .ok "page=1&pageSize=20&id=test_id&userId=user_123" ∧
        to_query_string .camelCase testStructInstance =
          "page=1&pageSize=20&id=test_id&userId=user_123") ∧
      try_to_query_string .identity unsupportedRecord =
          .error .UnsupportedType ∧
        to_query_string .identity unsupportedRecord = "" := by
  have hok : try_to_query_string .camelCase testStructInstance =
      .ok "page=1&pageSize=20&id=test_id&userId=user_123" := by
    simp only [try_to_query_string, encode, testStructInstance, encodeFields,
      encodeValue, mkKey, applyConvention, splitWords, splitUnderscore,
      renderPairs, pairString, pctEncode, pctEncodeKey, isUnreserved,
      capitalizeWord, Except.map, Except.bind, bind, pure, Except.pure]
    rfl
  have herr : try_to_query_string .identity unsupportedRecord =
      .error .UnsupportedType := by
    simp only [try_to_query_string, encode, unsupportedRecord, encodeFields,
      encodeValue, Except.map, Except.bind, bind]
  exact ⟨⟨hok, (lossy_refines_strict _ _).2.1 _ hok⟩,
    herr, (lossy_refines_strict _ _).2.2 _ herr⟩

end UrlQueryString
